import Mathlib

/-!
Shallow embedding of the consistent-hashing ring of src/src/consistant.rs.

The Rust struct Consistant owns
  - replicas_num : usize,
  - circle       : HashMap<u32, Rc<String>>   (virtual-point hash -> owner name),
  - members      : HashMap<Rc<String>, ()>    (a set of names),
  - sorted_keys  : Vec<u32>,
  - lock         : RwLock<()>.

The hash primitive (crc32 checksum_ieee in the source) is treated as an
injected pure function from strings to hash values, exactly as the design
document declares it out of scope; every operation below is parametric in
that function.  The lock serialises access and has no observable effect on
the sequential semantics, so it is not modelled.  HashMap<u32, _> is
modelled as an association list whose keys stay pairwise distinct: insert
overwrites the entry of an existing key, remove deletes by key.  The set
of members is modelled as a list without duplicates.
-/

structure Consistant where
  replicas_num : Nat
  circle : List (Nat × String)
  members : List String
  sorted_keys : List Nat
deriving DecidableEq

namespace Consistant

/-- Construction: Consistant::new(replicas_num), all containers empty. -/
def new (replicas_num : Nat) : Consistant :=
  { replicas_num := replicas_num, circle := [], members := [], sorted_keys := [] }

/-- Consistant::count — the number of registered members. -/
def count (c : Consistant) : Nat := c.members.length

/-- Consistant::contains — exact membership test against members. -/
def contains (c : Consistant) (name : String) : Bool := c.members.contains name

/-- Consistant::generate_element_name — the virtual-point name is the node
name concatenated with the decimal replica index. -/
def generate_element_name (element : String) (i : Nat) : String :=
  element ++ toString i

/-- HashMap::insert on the association list representing circle: an
existing key has its value overwritten, a fresh key is appended. -/
def mapInsert (m : List (Nat × String)) (k : Nat) (v : String) : List (Nat × String) :=
  if m.any (fun p => p.1 == k) then
    m.map (fun p => if p.1 == k then (k, v) else p)
  else m ++ [(k, v)]

/-- HashMap::remove on the association list representing circle. -/
def mapRemove (m : List (Nat × String)) (k : Nat) : List (Nat × String) :=
  m.filter (fun p => p.1 ≠ k)

/-- One iteration of the insertion loop of Consistant::add: hash the
virtual-point name, insert it into circle and push it onto sorted_keys. -/
def addStep (hash : String → Nat) (element : String) (c : Consistant) (i : Nat) : Consistant :=
  let sum := hash (generate_element_name element i)
  { c with circle := mapInsert c.circle sum element,
           sorted_keys := c.sorted_keys ++ [sum] }

/-- Consistant::add — a no-op when the name is already a member; otherwise
insert replicas_num virtual points, register the member and re-sort the
keys ascending (Vec::sort). -/
def add (hash : String → Nat) (c : Consistant) (element : String) : Consistant :=
  if c.contains element then c
  else
    let c1 := (List.range c.replicas_num).foldl (addStep hash element) c
    { c1 with members := c1.members ++ [element],
              sorted_keys := c1.sorted_keys.insertionSort (· ≤ ·) }

/-- One iteration of the deletion loop of Consistant::remove: delete the
recomputed hash from circle, and delete its first occurrence from
sorted_keys (the None branch is unreachable! in the source; it is modelled
as leaving sorted_keys unchanged). -/
def removeStep (hash : String → Nat) (name : String) (c : Consistant) (i : Nat) : Consistant :=
  let sum := hash (generate_element_name name i)
  { c with circle := mapRemove c.circle sum,
           sorted_keys :=
             match c.sorted_keys.findIdx? (fun key => key == sum) with
             | some index => c.sorted_keys.eraseIdx index
             | none => c.sorted_keys }

/-- Consistant::remove — a no-op when the name is not a member; otherwise
delete all replicas_num virtual points and deregister the member. -/
def remove (hash : String → Nat) (c : Consistant) (name : String) : Consistant :=
  if c.contains name then
    let c1 := (List.range c.replicas_num).foldl (removeStep hash name) c
    { c1 with members := c1.members.erase name }
  else c

/-- The scan of Consistant::get_key_index: the index of the first key with
sum < key, or none when no key qualifies. -/
def get_key_index_aux (sum : Nat) : List Nat → Option Nat
  | [] => none
  | key :: rest =>
      if sum < key then some 0
      else (get_key_index_aux sum rest).map (· + 1)

/-- Consistant::get_key_index — first index whose key is strictly greater
than the hash, falling back to 0 (the wrap-around). -/
def get_key_index (c : Consistant) (sum : Nat) : Nat :=
  (get_key_index_aux sum c.sorted_keys).getD 0

/-- Consistant::get_i_from_circle — owner lookup by point hash (the None
branch is unreachable! in the source; it is modelled as the empty string). -/
def get_i_from_circle (c : Consistant) (i : Nat) : String :=
  match c.circle.find? (fun p => p.1 == i) with
  | some p => p.2
  | none => ""

/-- Consistant::get — None on an empty circle, otherwise the owner of the
point at the computed key index. -/
def get (hash : String → Nat) (c : Consistant) (name : String) : Option String :=
  if c.circle.length == 0 then none
  else some (c.get_i_from_circle (c.sorted_keys.getD (c.get_key_index (hash name)) 0))

/-- The collection loop of Consistant::get_n, with explicit fuel counting
loop iterations: none means the loop has not reached its break within fuel
iterations.  Each iteration advances start with wrap-around, looks up the
owner of the point there, pushes it when not yet collected, and breaks
exactly when the collected length equals count. -/
def get_n_loop (c : Consistant) (count : Nat) : Nat → Nat → List String → Option (List String)
  | 0, _, _ => none
  | fuel + 1, start, res =>
      let start1 := if start + 1 ≥ c.sorted_keys.length then 0 else start + 1
      let element := c.get_i_from_circle (c.sorted_keys.getD start1 0)
      let res1 := if res.contains element then res else res ++ [element]
      if res1.length == count then some res1
      else get_n_loop c count fuel start1 res1

/-- Consistant::get_n.  The outer some layer separates the loop from the
returned value: some none is the Rust return value None (n == 0 or empty
circle), some (some res) is the Rust return value Some(res), and none
means the collection loop has not terminated within fuel iterations. -/
def get_n (hash : String → Nat) (c : Consistant) (name : String) (n : Nat) (fuel : Nat) :
    Option (Option (List String)) :=
  if n == 0 || c.circle.length == 0 then some none
  else
    let count := if c.count > n then n else c.count
    let start := c.get_key_index (hash name)
    let element := c.get_i_from_circle (c.sorted_keys.getD start 0)
    (get_n_loop c count fuel start [element]).map some

/-- Minimum of a list of naturals, none on the empty list.  Used only by
the spec-side successor description below. -/
def listMinOpt : List Nat → Option Nat
  | [] => none
  | a :: l =>
      match listMinOpt l with
      | none => some a
      | some b => some (Nat.min a b)

/-- Spec-side description of the successor point, following the words of
the specification: the smallest hash in the key sequence strictly greater
than the query hash, wrapping to the smallest hash of the sequence when no
key is strictly greater. -/
def successorSpecPoint (h : Nat) (keys : List Nat) : Option Nat :=
  match listMinOpt (keys.filter (fun k => h < k)) with
  | some k => some k
  | none => listMinOpt keys

/-- The ring-state invariants: sorted_keys is ascending and is exactly the
key set of circle, keys and members have no duplicates, members is exactly
the set of owner names occurring in circle, every member owns its
replicas_num canonical points, every point sits at a canonical hash of its
owner, and every member owns exactly replicas_num points. -/
def Inv (hash : String → Nat) (c : Consistant) : Prop :=
  List.Sorted (· ≤ ·) c.sorted_keys ∧
  c.sorted_keys.Perm (c.circle.map Prod.fst) ∧
  (c.circle.map Prod.fst).Nodup ∧
  c.members.Nodup ∧
  (∀ s, s ∈ c.members ↔ ∃ p ∈ c.circle, p.2 = s) ∧
  (∀ s ∈ c.members, ∀ i < c.replicas_num, (hash (generate_element_name s i), s) ∈ c.circle) ∧
  (∀ p ∈ c.circle, ∃ i < c.replicas_num, p.1 = hash (generate_element_name p.2 i)) ∧
  (∀ s ∈ c.members, (c.circle.filter (fun p => p.2 == s)).length = c.replicas_num)

/-- Absence of hash collisions among the virtual points inserted by
add: when the name is not yet a member, its replicas_num point hashes are
pairwise distinct and distinct from every key already in circle. -/
def AddFresh (hash : String → Nat) (c : Consistant) (x : String) : Prop :=
  c.contains x = true ∨
  (((List.range c.replicas_num).map (fun i => hash (generate_element_name x i))).Nodup ∧
   ∀ i < c.replicas_num, hash (generate_element_name x i) ∉ c.circle.map Prod.fst)

end Consistant

open Consistant

/-- A concrete injected hash realising the successor example of the spec:
the three virtual points A0, B0, C0 sit at 10, 50, 90 and the two query
keys q30 and q95 hash to 30 and 95. -/
def hashABC : String → Nat := fun s =>
  if s == "q30" then 30 else if s == "q95" then 95
  else if s == "A0" then 10 else if s == "B0" then 50 else if s == "C0" then 90 else 0

/-- The ring of the successor example: points 10, 50, 90 owned by A, B, C. -/
def ringABC : Consistant :=
  { replicas_num := 1, circle := [(10, "A"), (50, "B"), (90, "C")],
    members := ["A", "B", "C"], sorted_keys := [10, 50, 90] }

/-- A concrete injected hash under which the collection loop of get_n
diverges: the points of A sit at 10 and 30, the points of B at 20 and 40,
and the query key k hashes to 5. -/
def hashW : String → Nat := fun s =>
  if s == "A0" then 10 else if s == "A1" then 30
  else if s == "B0" then 20 else if s == "B1" then 40
  else if s == "k" then 5 else 0

/-- The two-member ring built by add(A); add(B) on a fresh two-replica
ring under hashW: its points alternate between the owners A and B. -/
def ringW : Consistant := add hashW (add hashW (Consistant.new 2) "A") "B"

/-- A trivial injected hash, used to instantiate witnesses. -/
def hashZ : String → Nat := fun _ => 0

namespace Consistant

theorem foldl_addStep_members (hash : String → Nat) (x : String) :
    ∀ (L : List Nat) (c : Consistant), (L.foldl (addStep hash x) c).members = c.members := by
  intro L
  induction L with
  | nil => intro c; rfl
  | cons j t ih => intro c; simpa [addStep] using ih _

theorem foldl_addStep_replicas (hash : String → Nat) (x : String) :
    ∀ (L : List Nat) (c : Consistant),
      (L.foldl (addStep hash x) c).replicas_num = c.replicas_num := by
  intro L
  induction L with
  | nil => intro c; rfl
  | cons j t ih => intro c; simpa [addStep] using ih _

theorem foldl_removeStep_members (hash : String → Nat) (x : String) :
    ∀ (L : List Nat) (c : Consistant), (L.foldl (removeStep hash x) c).members = c.members := by
  intro L
  induction L with
  | nil => intro c; rfl
  | cons j t ih => intro c; simpa [removeStep] using ih _

theorem foldl_removeStep_replicas (hash : String → Nat) (x : String) :
    ∀ (L : List Nat) (c : Consistant),
      (L.foldl (removeStep hash x) c).replicas_num = c.replicas_num := by
  intro L
  induction L with
  | nil => intro c; rfl
  | cons j t ih => intro c; simpa [removeStep] using ih _

theorem add_members (hash : String → Nat) (c : Consistant) (x : String) :
    (add hash c x).members = if c.contains x then c.members else c.members ++ [x] := by
  by_cases h : c.contains x
  · simp [add, h]
  · simp [add, h, foldl_addStep_members]

theorem remove_members (hash : String → Nat) (c : Consistant) (x : String) :
    (remove hash c x).members = if c.contains x then c.members.erase x else c.members := by
  by_cases h : c.contains x
  · simp [remove, h, foldl_removeStep_members]
  · simp [remove, h]

theorem add_replicas (hash : String → Nat) (c : Consistant) (x : String) :
    (add hash c x).replicas_num = c.replicas_num := by
  by_cases h : c.contains x
  · simp [add, h]
  · simp [add, h, foldl_addStep_replicas]

theorem contains_add_self (hash : String → Nat) (c : Consistant) (x : String) :
    (add hash c x).contains x = true := by
  by_cases h : c.contains x
  · simp [add, h]
  · rw [contains, add_members, if_neg h]
    simp

/-- C5: add is idempotent — a second add of the same name is a complete
no-op, leaving the point map, the sorted key sequence and the member set
(indeed the whole ring state) unchanged. -/
theorem add_idempotent (hash : String → Nat) (c : Consistant) (x : String) :
    add hash (add hash c x) x = add hash c x := by
  have h := contains_add_self hash c x
  rw [add, if_pos h]

end Consistant

namespace Consistant

/-- C7: absence is signaled through optionality — on a fresh ring, get
and get_n return the absence signal for every key and every n, count is
zero, and get_n with n equal to 0 returns the absence signal on every
ring state (some none is the Rust return value None). -/
theorem absence_signaled_by_none (hash : String → Nat) (r : Nat) (key : String)
    (n fuel : Nat) (c : Consistant) :
    get hash (Consistant.new r) key = none ∧
    get_n hash (Consistant.new r) key n fuel = some none ∧
    count (Consistant.new r) = 0 ∧
    get_n hash c key 0 fuel = some none := by
  refine ⟨rfl, ?_, rfl, rfl⟩
  simp [get_n, Consistant.new]

/-- C8: count counts distinct registered members and contains tests exact
membership — after add(A); add(B); remove(A) on a fresh ring with A and B
distinct, count is 1, contains(A) is false and contains(B) is true. -/
theorem count_contains_after_sequence (hash : String → Nat) (r : Nat) (A B : String)
    (hAB : A ≠ B) :
    count (remove hash (add hash (add hash (Consistant.new r) A) B) A) = 1 ∧
    contains (remove hash (add hash (add hash (Consistant.new r) A) B) A) A = false ∧
    contains (remove hash (add hash (add hash (Consistant.new r) A) B) A) B = true := by
  have hBA : ¬ (B = A) := fun h => hAB h.symm
  have h1 : (add hash (Consistant.new r) A).members = [A] := by
    simp [add_members, contains, Consistant.new]
  have hc1 : (add hash (Consistant.new r) A).contains B = false := by
    rw [contains, h1]
    simp [hBA]
  have h2 : (add hash (add hash (Consistant.new r) A) B).members = [A, B] := by
    rw [add_members, hc1, h1]
    rfl
  have hc2 : (add hash (add hash (Consistant.new r) A) B).contains A = true := by
    rw [contains, h2]
    simp
  have h3 : (remove hash (add hash (add hash (Consistant.new r) A) B) A).members = [B] := by
    rw [remove_members, hc2, h2]
    simp [List.erase_cons, hBA]
  refine ⟨?_, ?_, ?_⟩
  · rw [count, h3]
    rfl
  · rw [contains, h3]
    simp [hAB]
  · rw [contains, h3]
    simp

theorem count_contains_after_sequence_witness :
    count (remove hashZ (add hashZ (add hashZ (Consistant.new 1) "A") "B") "A") = 1 ∧
    contains (remove hashZ (add hashZ (add hashZ (Consistant.new 1) "A") "B") "A") "A" = false ∧
    contains (remove hashZ (add hashZ (add hashZ (Consistant.new 1) "A") "B") "A") "B" = true :=
  count_contains_after_sequence hashZ 1 "A" "B" (by decide)

/-- C9: with replicas_num equal to 0, add still registers the member —
contains becomes true and count is incremented — while no virtual point is
created, so get and get_n still return the absence signal for every key. -/
theorem add_zero_replicas (hash : String → Nat) (c : Consistant) (name key : String)
    (n fuel : Nat) (hr : c.replicas_num = 0) (hc : c.circle = [])
    (hname : c.contains name = false) :
    contains (add hash c name) name = true ∧
    count (add hash c name) = count c + 1 ∧
    get hash (add hash c name) key = none ∧
    get_n hash (add hash c name) key n fuel = some none := by
  have hrange : List.range c.replicas_num = [] := by rw [hr]; rfl
  have hadd : add hash c name =
      { c with members := c.members ++ [name],
               sorted_keys := c.sorted_keys.insertionSort (· ≤ ·) } := by
    rw [add, if_neg (by simp [hname]), hrange]
    rfl
  refine ⟨?_, ?_, ?_, ?_⟩
  · rw [hadd, contains]
    simp
  · simp [hadd, count]
  · simp [hadd, get, hc]
  · simp [hadd, get_n, hc]

theorem add_zero_replicas_witness :
    contains (add hashZ (Consistant.new 0) "a") "a" = true ∧
    count (add hashZ (Consistant.new 0) "a") = count (Consistant.new 0) + 1 ∧
    get hashZ (add hashZ (Consistant.new 0) "a") "key" = none ∧
    get_n hashZ (add hashZ (Consistant.new 0) "a") "key" 3 5 = some none :=
  add_zero_replicas hashZ (Consistant.new 0) "a" "key" 3 5 rfl rfl rfl

/-- Once the collected list is already longer than the target count, the
collection loop of get_n can never satisfy its exit condition again, for
any amount of fuel: the collected list never shrinks. -/
theorem get_n_loop_stuck (c : Consistant) (count : Nat) :
    ∀ (fuel start : Nat) (res : List String), count < res.length →
      get_n_loop c count fuel start res = none := by
  intro fuel
  induction fuel with
  | zero => intro start res h; rfl
  | succ m ih =>
    intro start res h
    have key : ∀ (start1 : Nat) (e : String),
        (if (if res.contains e then res else res ++ [e]).length == count then
           some (if res.contains e then res else res ++ [e])
         else get_n_loop c count m start1 (if res.contains e then res else res ++ [e])) =
          none := by
      intro start1 e
      have h1 : count < (if res.contains e then res else res ++ [e]).length := by
        split
        · exact h
        · exact Nat.lt_of_lt_of_le h (by simp)
      rw [if_neg (by simp only [beq_iff_eq]; exact Nat.ne_of_gt h1)]
      exact ih _ _ h1
    exact key (if start + 1 ≥ c.sorted_keys.length then 0 else start + 1)
      (c.get_i_from_circle
        (c.sorted_keys.getD (if start + 1 ≥ c.sorted_keys.length then 0 else start + 1) 0))

end Consistant

/-- C3: the collection loop of get_n does not always reach its exit
condition — on the two-member ring ringW with target count 1, starting at
index 0 with A already collected (exactly the loop state reached by
get_n(k, 1)), the loop runs forever: no amount of fuel makes it break. -/
theorem get_n_loop_never_exits : ∀ fuel : Nat, get_n_loop ringW 1 fuel 0 ["A"] = none := by
  intro fuel
  cases fuel with
  | zero => rfl
  | succ m =>
    have h1 : get_n_loop ringW 1 (m + 1) 0 ["A"] = get_n_loop ringW 1 m 1 ["A", "B"] := rfl
    rw [h1]
    exact Consistant.get_n_loop_stuck ringW 1 m 1 ["A", "B"] (by decide)

/-- C2: get_n does not return a sequence of length min(n, member count)
for every n at least 1 — on the two-member ring ringW, the call
get_n(k, 1) never returns at all, whatever fuel the collection loop is
given. -/
theorem get_n_diverges_on_n_one : ∀ fuel : Nat, get_n hashW ringW "k" 1 fuel = none := by
  intro fuel
  cases fuel with
  | zero => rfl
  | succ m =>
    have h1 : get_n hashW ringW "k" 1 (m + 1) =
        (get_n_loop ringW 1 m 1 ["A", "B"]).map some := rfl
    rw [h1, Consistant.get_n_loop_stuck ringW 1 m 1 ["A", "B"] (by decide)]
    rfl

namespace Consistant

theorem listMinOpt_mem : ∀ (l : List Nat) (b : Nat), listMinOpt l = some b → b ∈ l := by
  intro l
  induction l with
  | nil => intro b h; simp [listMinOpt] at h
  | cons a t ih =>
    intro b h
    rw [listMinOpt] at h
    cases ht : listMinOpt t with
    | none =>
      rw [ht] at h
      simp at h
      simp [h]
    | some m =>
      rw [ht] at h
      simp at h
      have h2 : (if a ≤ m then a else m) = b := h
      clear h
      rename' h2 => h
      by_cases h1 : a ≤ m
      · rw [if_pos h1] at h
        exact h ▸ List.mem_cons_self a t
      · rw [if_neg h1] at h
        exact List.mem_cons_of_mem a (h ▸ ih m ht)

theorem listMinOpt_sorted_head (l : List Nat) (hs : List.Sorted (· ≤ ·) l) :
    listMinOpt l = l.head? := by
  induction l with
  | nil => rfl
  | cons a t ih =>
    rw [listMinOpt]
    cases ht : listMinOpt t with
    | none => rfl
    | some m =>
      have hm : m ∈ t := listMinOpt_mem t m ht
      have ham : a ≤ m := (List.sorted_cons.mp hs).1 m hm
      simp [Nat.min_eq_left ham]

theorem get_key_index_aux_none (sum : Nat) :
    ∀ l : List Nat, get_key_index_aux sum l = none → ∀ k ∈ l, ¬ sum < k := by
  intro l
  induction l with
  | nil => intro _ k hk; simp at hk
  | cons a t ih =>
    intro h k hk
    rw [get_key_index_aux] at h
    by_cases ha : sum < a
    · rw [if_pos ha] at h
      exact absurd h (by simp)
    · rw [if_neg ha] at h
      rcases List.mem_cons.mp hk with rfl | hk2
      · exact ha
      · exact ih (Option.map_eq_none'.mp h) k hk2

theorem get_key_index_aux_some (sum : Nat) :
    ∀ (l : List Nat) (i : Nat), get_key_index_aux sum l = some i →
      ∃ v, l[i]? = some v ∧ (l.filter (fun k => decide (sum < k))).head? = some v := by
  intro l
  induction l with
  | nil => intro i h; simp [get_key_index_aux] at h
  | cons a t ih =>
    intro i h
    rw [get_key_index_aux] at h
    by_cases ha : sum < a
    · rw [if_pos ha] at h
      have hi : i = 0 := by simpa using h.symm
      subst hi
      exact ⟨a, by simp, by simp [List.filter_cons, ha]⟩
    · rw [if_neg ha] at h
      cases hh : get_key_index_aux sum t with
      | none =>
        rw [hh] at h
        simp at h
      | some j =>
        rw [hh] at h
        simp at h
        obtain ⟨v, hv1, hv2⟩ := ih j hh
        refine ⟨v, ?_, ?_⟩
        · rw [← h]
          simpa using hv1
        · simpa [List.filter_cons, ha] using hv2

end Consistant

/-- C1: on every ring with at least one virtual point, get returns Some of
the node owning the successor point — the smallest key strictly greater
than the query hash, wrapping to the smallest key when none is greater —
and in particular, on the ring with points 10, 50, 90 owned by A, B, C, a
query hashing to 30 resolves to B and one hashing to 95 wraps to A. -/
theorem get_returns_successor :
    (∀ (hash : String → Nat) (c : Consistant) (name : String),
        c.circle ≠ [] → c.sorted_keys ≠ [] → List.Sorted (· ≤ ·) c.sorted_keys →
        ∃ k, successorSpecPoint (hash name) c.sorted_keys = some k ∧
          get hash c name = some (c.get_i_from_circle k)) ∧
    get hashABC ringABC "q30" = some "B" ∧ get hashABC ringABC "q95" = some "A" := by
  refine ⟨?_, by decide, by decide⟩
  intro hash c name hne hk hs
  have hguard : ¬ (c.circle.length == 0) = true := by
    simp [List.length_eq_zero, hne]
  rw [Consistant.get, if_neg hguard, Consistant.get_key_index]
  cases haux : get_key_index_aux (hash name) c.sorted_keys with
  | some i =>
    obtain ⟨v, hv1, hv2⟩ := Consistant.get_key_index_aux_some (hash name) c.sorted_keys i haux
    refine ⟨v, ?_, ?_⟩
    · rw [successorSpecPoint,
        Consistant.listMinOpt_sorted_head _ (hs.filter (fun k => decide (hash name < k))), hv2]
    · rw [Option.getD_some]
      congr 1
      rw [List.getD_eq_getElem?_getD, hv1, Option.getD_some]
  | none =>
    have hall := Consistant.get_key_index_aux_none (hash name) c.sorted_keys haux
    have hfil : c.sorted_keys.filter (fun k => decide (hash name < k)) = [] := by
      simp only [List.filter_eq_nil_iff]
      intro a ha
      simpa using hall a ha
    cases hsk : c.sorted_keys with
    | nil => exact absurd hsk hk
    | cons a t =>
      rw [hsk] at hfil hs
      refine ⟨a, ?_, ?_⟩
      · rw [successorSpecPoint, hfil, Consistant.listMinOpt_sorted_head _ hs]
        rfl
      · simp

theorem get_returns_successor_witness :
    ∃ k, successorSpecPoint (hashABC "q30") ringABC.sorted_keys = some k ∧
      get hashABC ringABC "q30" = some (ringABC.get_i_from_circle k) :=
  get_returns_successor.1 hashABC ringABC "q30" (by decide) (by decide) (by decide)

namespace Consistant

theorem foldl_addStep_fresh (hash : String → Nat) (x : String) :
    ∀ (L : List Nat) (c : Consistant),
      (∀ i ∈ L, ∀ p ∈ c.circle, p.1 ≠ hash (generate_element_name x i)) →
      (L.map (fun i => hash (generate_element_name x i))).Nodup →
      (L.foldl (addStep hash x) c).circle
          = c.circle ++ L.map (fun i => (hash (generate_element_name x i), x)) ∧
      (L.foldl (addStep hash x) c).sorted_keys
          = c.sorted_keys ++ L.map (fun i => hash (generate_element_name x i)) := by
  intro L
  induction L with
  | nil => intro c _ _; simp
  | cons j t ih =>
    intro c hfresh hnd
    have hany : c.circle.any (fun p => p.1 == hash (generate_element_name x j)) = false := by
      simp only [List.any_eq_false, beq_iff_eq]
      intro p hp
      exact hfresh j (by simp) p hp
    have hstep : (addStep hash x c j).circle
        = c.circle ++ [(hash (generate_element_name x j), x)] := by
      simp [addStep, mapInsert, hany]
    have hstepk : (addStep hash x c j).sorted_keys
        = c.sorted_keys ++ [hash (generate_element_name x j)] := rfl
    have hndt : (t.map (fun i => hash (generate_element_name x i))).Nodup :=
      (List.nodup_cons.mp (by simpa using hnd)).2
    have hjt : hash (generate_element_name x j) ∉
        t.map (fun i => hash (generate_element_name x i)) :=
      (List.nodup_cons.mp (by simpa using hnd)).1
    have hfresh2 : ∀ i ∈ t, ∀ p ∈ (addStep hash x c j).circle,
        p.1 ≠ hash (generate_element_name x i) := by
      intro i hi p hp
      rw [hstep] at hp
      rcases List.mem_append.mp hp with hp1 | hp2
      · exact hfresh i (by simp [hi]) p hp1
      · have : p = (hash (generate_element_name x j), x) := by simpa using hp2
        rw [this]
        intro hcontra
        apply hjt
        have hj_eq : hash (generate_element_name x j) = hash (generate_element_name x i) := hcontra
        rw [hj_eq]
        exact List.mem_map_of_mem (fun i => hash (generate_element_name x i)) hi
    obtain ⟨hc, hk⟩ := ih (addStep hash x c j) hfresh2 hndt
    constructor
    · rw [List.foldl_cons, hc, hstep, List.map_cons, List.append_assoc]
      rfl
    · rw [List.foldl_cons, hk, hstepk, List.map_cons, List.append_assoc]
      rfl

theorem erase_eq_findIdx_eraseIdx (a : Nat) : ∀ l : List Nat,
    (match l.findIdx? (fun key => key == a) with
     | some index => l.eraseIdx index
     | none => l) = l.erase a := by
  intro l
  induction l with
  | nil => rfl
  | cons b t ih =>
    by_cases hb : (b == a) = true
    · simp [List.findIdx?_cons, hb, List.erase_cons, List.eraseIdx]
    · rw [List.findIdx?_cons, if_neg (by simp [hb]), List.findIdx?_succ]
      cases hf : t.findIdx? (fun key => key == a) with
      | none =>
        rw [hf] at ih
        simp only [Option.map_none']
        rw [List.erase_cons, if_neg hb]
        exact congrArg (b :: ·) ih
      | some j =>
        rw [hf] at ih
        simp only [Option.map_some']
        rw [List.erase_cons, if_neg hb]
        show b :: t.eraseIdx j = b :: t.erase a
        exact congrArg (b :: ·) ih

theorem removeStep_sorted_keys (hash : String → Nat) (x : String) (c : Consistant) (i : Nat) :
    (removeStep hash x c i).sorted_keys
      = c.sorted_keys.erase (hash (generate_element_name x i)) :=
  erase_eq_findIdx_eraseIdx _ _

theorem foldl_removeStep_circle (hash : String → Nat) (x : String) :
    ∀ (L : List Nat) (c : Consistant),
      (L.foldl (removeStep hash x) c).circle =
        L.foldl (fun m i => mapRemove m (hash (generate_element_name x i))) c.circle := by
  intro L
  induction L with
  | nil => intro c; rfl
  | cons j t ih =>
    intro c
    rw [List.foldl_cons, List.foldl_cons, ih]
    rfl

theorem foldl_removeStep_keys (hash : String → Nat) (x : String) :
    ∀ (L : List Nat) (c : Consistant),
      (L.foldl (removeStep hash x) c).sorted_keys =
        L.foldl (fun sk i => sk.erase (hash (generate_element_name x i))) c.sorted_keys := by
  intro L
  induction L with
  | nil => intro c; rfl
  | cons j t ih =>
    intro c
    rw [List.foldl_cons, List.foldl_cons, ih, removeStep_sorted_keys]

theorem foldl_mapRemove_of_fresh : ∀ (K : List Nat) (d : List (Nat × String)),
    (∀ k ∈ K, ∀ p ∈ d, p.1 ≠ k) →
    K.foldl (fun m k => mapRemove m k) d = d := by
  intro K
  induction K with
  | nil => intro d _; rfl
  | cons k t ih =>
    intro d hfresh
    rw [List.foldl_cons]
    have hd : mapRemove d k = d := by
      rw [mapRemove]
      apply List.filter_eq_self.mpr
      intro p hp
      simpa using hfresh k (by simp) p hp
    rw [hd]
    exact ih d (fun k2 hk2 p hp => hfresh k2 (by simp [hk2]) p hp)

theorem foldl_mapRemove_append (x : String) : ∀ (K : List Nat) (d : List (Nat × String)),
    (∀ k ∈ K, ∀ p ∈ d, p.1 ≠ k) → K.Nodup →
    K.foldl (fun m k => mapRemove m k) (d ++ K.map (fun k => (k, x))) = d := by
  intro K
  induction K with
  | nil => intro d _ _; simp
  | cons k t ih =>
    intro d hfresh hnd
    rw [List.foldl_cons]
    have h1 : mapRemove (d ++ (k, x) :: t.map (fun k2 => (k2, x))) k
        = d ++ t.map (fun k2 => (k2, x)) := by
      rw [mapRemove, List.filter_append]
      have hd : d.filter (fun p => decide (p.1 ≠ k)) = d := by
        apply List.filter_eq_self.mpr
        intro p hp
        simpa using hfresh k (by simp) p hp
      have ht : ((k, x) :: t.map (fun k2 => (k2, x))).filter (fun p => decide (p.1 ≠ k))
          = t.map (fun k2 => (k2, x)) := by
        rw [List.filter_cons]
        rw [if_neg (by simp)]
        apply List.filter_eq_self.mpr
        intro p hp
        obtain ⟨k2, hk2, rfl⟩ := List.mem_map.mp hp
        have : k2 ≠ k := fun h => (List.nodup_cons.mp hnd).1 (h ▸ hk2)
        simpa using this
      rw [hd, ht]
    rw [List.map_cons, h1]
    exact ih d (fun k2 hk2 p hp => hfresh k2 (by simp [hk2]) p hp) (List.nodup_cons.mp hnd).2

theorem foldl_erase_perm : ∀ (K : List Nat) {s t : List Nat}, s.Perm t →
    (K.foldl (fun l k => l.erase k) s).Perm (K.foldl (fun l k => l.erase k) t) := by
  intro K
  induction K with
  | nil => intro s t h; exact h
  | cons k Kt ih =>
    intro s t h
    rw [List.foldl_cons, List.foldl_cons]
    exact ih (h.erase k)

theorem foldl_erase_sorted : ∀ (K : List Nat) {s : List Nat}, List.Sorted (· ≤ ·) s →
    List.Sorted (· ≤ ·) (K.foldl (fun l k => l.erase k) s) := by
  intro K
  induction K with
  | nil => intro s h; exact h
  | cons k Kt ih =>
    intro s h
    rw [List.foldl_cons]
    exact ih (h.sublist (List.erase_sublist k s))

theorem foldl_erase_append : ∀ (K : List Nat) (s : List Nat),
    (∀ k ∈ K, k ∉ s) → K.Nodup →
    K.foldl (fun l k => l.erase k) (s ++ K) = s := by
  intro K
  induction K with
  | nil => intro s _ _; simp
  | cons k t ih =>
    intro s hdisj hnd
    rw [List.foldl_cons]
    have h1 : (s ++ k :: t).erase k = s ++ t := by
      rw [List.erase_append_right _ (hdisj k (by simp)), List.erase_cons_head]
    rw [h1]
    exact ih s (fun k2 hk2 => hdisj k2 (by simp [hk2])) (List.nodup_cons.mp hnd).2

end Consistant

namespace Consistant

theorem eq_of_components {a b : Consistant}
    (h1 : a.replicas_num = b.replicas_num) (h2 : a.circle = b.circle)
    (h3 : a.members = b.members) (h4 : a.sorted_keys = b.sorted_keys) : a = b := by
  cases a
  cases b
  simp_all

theorem add_not_mem_circle (hash : String → Nat) (c : Consistant) (x : String)
    (hx : c.contains x = false) :
    (add hash c x).circle = ((List.range c.replicas_num).foldl (addStep hash x) c).circle := by
  rw [add, if_neg (by simp [hx])]

theorem add_not_mem_keys (hash : String → Nat) (c : Consistant) (x : String)
    (hx : c.contains x = false) :
    (add hash c x).sorted_keys
      = (((List.range c.replicas_num).foldl (addStep hash x) c).sorted_keys).insertionSort
          (· ≤ ·) := by
  rw [add, if_neg (by simp [hx])]

theorem remove_mem_circle (hash : String → Nat) (c : Consistant) (x : String)
    (hx : c.contains x = true) :
    (remove hash c x).circle
      = ((List.range c.replicas_num).foldl (removeStep hash x) c).circle := by
  rw [remove, if_pos hx]

theorem remove_mem_keys (hash : String → Nat) (c : Consistant) (x : String)
    (hx : c.contains x = true) :
    (remove hash c x).sorted_keys
      = ((List.range c.replicas_num).foldl (removeStep hash x) c).sorted_keys := by
  rw [remove, if_pos hx]

theorem remove_mem_members (hash : String → Nat) (c : Consistant) (x : String)
    (hx : c.contains x = true) :
    (remove hash c x).members
      = ((List.range c.replicas_num).foldl (removeStep hash x) c).members.erase x := by
  rw [remove, if_pos hx]

theorem remove_replicas (hash : String → Nat) (c : Consistant) (x : String) :
    (remove hash c x).replicas_num = c.replicas_num := by
  by_cases h : c.contains x
  · rw [remove, if_pos h]
    exact foldl_removeStep_replicas hash x _ c
  · rw [remove, if_neg h]

theorem foldl_erase_over_map (h : Nat → Nat) : ∀ (L : List Nat) (s : List Nat),
    L.foldl (fun sk i => sk.erase (h i)) s = (L.map h).foldl (fun l k => l.erase k) s := by
  intro L
  induction L with
  | nil => intro s; rfl
  | cons j t ih =>
    intro s
    rw [List.foldl_cons, List.map_cons, List.foldl_cons, ih]

theorem foldl_mapRemove_over_map (h : Nat → Nat) : ∀ (L : List Nat) (m : List (Nat × String)),
    L.foldl (fun m2 i => mapRemove m2 (h i)) m
      = (L.map h).foldl (fun m2 k => mapRemove m2 k) m := by
  intro L
  induction L with
  | nil => intro m; rfl
  | cons j t ih =>
    intro m
    rw [List.foldl_cons, List.map_cons, List.foldl_cons, ih]

/-- C6: remove is the exact inverse of add — for a name that is not yet a
member, on a well-sorted ring whose existing points and keys do not
collide with the name's fresh virtual points, add followed by remove
restores the exact pre-add ring state with no leaked points. -/
theorem remove_add_inverse (hash : String → Nat) (c : Consistant) (x : String)
    (hx : c.contains x = false)
    (hsorted : List.Sorted (· ≤ ·) c.sorted_keys)
    (hnd : ((List.range c.replicas_num).map (fun i => hash (generate_element_name x i))).Nodup)
    (hfreshC : ∀ i < c.replicas_num, ∀ p ∈ c.circle, p.1 ≠ hash (generate_element_name x i))
    (hfreshK : ∀ i < c.replicas_num, hash (generate_element_name x i) ∉ c.sorted_keys) :
    remove hash (add hash c x) x = c := by
  have hfreshC2 : ∀ i ∈ List.range c.replicas_num, ∀ p ∈ c.circle,
      p.1 ≠ hash (generate_element_name x i) := by
    intro i hi
    exact hfreshC i (List.mem_range.mp hi)
  obtain ⟨hAc, hAk⟩ := foldl_addStep_fresh hash x (List.range c.replicas_num) c hfreshC2 hnd
  have haddrep : (add hash c x).replicas_num = c.replicas_num := add_replicas hash c x
  have hcontains : (add hash c x).contains x = true := contains_add_self hash c x
  have hxmem : x ∉ c.members := by
    intro hmem
    rw [contains] at hx
    simp [hmem] at hx
  have hdisjK : ∀ k ∈ (List.range c.replicas_num).map
      (fun i => hash (generate_element_name x i)), k ∉ c.sorted_keys := by
    intro k hk
    obtain ⟨i, hi, rfl⟩ := List.mem_map.mp hk
    exact hfreshK i (List.mem_range.mp hi)
  have hdisjC : ∀ k ∈ (List.range c.replicas_num).map
      (fun i => hash (generate_element_name x i)), ∀ p ∈ c.circle, p.1 ≠ k := by
    intro k hk p hp
    obtain ⟨i, hi, rfl⟩ := List.mem_map.mp hk
    exact hfreshC i (List.mem_range.mp hi) p hp
  have hrep : (remove hash (add hash c x) x).replicas_num = c.replicas_num := by
    rw [remove_replicas, haddrep]
  have hcirc : (remove hash (add hash c x) x).circle = c.circle := by
    rw [remove_mem_circle _ _ _ hcontains, haddrep, foldl_removeStep_circle,
      add_not_mem_circle _ _ _ hx, hAc,
      foldl_mapRemove_over_map (fun i => hash (generate_element_name x i))]
    have hmapmap : (List.range c.replicas_num).map
          (fun i => (hash (generate_element_name x i), x))
        = ((List.range c.replicas_num).map
            (fun i => hash (generate_element_name x i))).map (fun k => (k, x)) := by
      rw [List.map_map]
      rfl
    rw [hmapmap]
    exact foldl_mapRemove_append x _ c.circle hdisjC hnd
  have hmem : (remove hash (add hash c x) x).members = c.members := by
    rw [remove_mem_members _ _ _ hcontains, haddrep, foldl_removeStep_members,
      add_members, if_neg (by simp [hx]), List.erase_append_right _ hxmem,
      List.erase_cons_head, List.append_nil]
  have hkeys : (remove hash (add hash c x) x).sorted_keys = c.sorted_keys := by
    rw [remove_mem_keys _ _ _ hcontains, haddrep, foldl_removeStep_keys,
      add_not_mem_keys _ _ _ hx, hAk,
      foldl_erase_over_map (fun i => hash (generate_element_name x i))]
    have hperm := List.perm_insertionSort (· ≤ ·)
      (c.sorted_keys ++ (List.range c.replicas_num).map
        (fun i => hash (generate_element_name x i)))
    have h1 := foldl_erase_perm ((List.range c.replicas_num).map
      (fun i => hash (generate_element_name x i))) hperm
    have h2 := foldl_erase_append ((List.range c.replicas_num).map
      (fun i => hash (generate_element_name x i))) c.sorted_keys hdisjK hnd
    have h3 := foldl_erase_sorted ((List.range c.replicas_num).map
      (fun i => hash (generate_element_name x i)))
      (List.sorted_insertionSort (· ≤ ·)
        (c.sorted_keys ++ (List.range c.replicas_num).map
          (fun i => hash (generate_element_name x i))))
    rw [h2] at h1
    exact List.eq_of_perm_of_sorted h1 h3 hsorted
  exact eq_of_components hrep hcirc hmem hkeys

theorem remove_add_inverse_witness :
    remove hashZ (add hashZ (Consistant.new 1) "a") "a" = Consistant.new 1 :=
  remove_add_inverse hashZ (Consistant.new 1) "a" (by decide) (by decide) (by decide)
    (by decide) (by decide)

end Consistant

namespace Consistant

theorem mapInsert_length_le (m : List (Nat × String)) (k : Nat) (v : String) :
    (mapInsert m k v).length ≤ m.length + 1 := by
  rw [mapInsert]
  split
  · simp
  · simp

theorem mapInsert_length_of_mem (m : List (Nat × String)) (k : Nat) (v : String)
    (h : m.any (fun p => p.1 == k) = true) :
    (mapInsert m k v).length = m.length := by
  rw [mapInsert, if_pos h, List.length_map]

theorem mapInsert_any_self (m : List (Nat × String)) (k : Nat) (v : String) :
    (mapInsert m k v).any (fun p => p.1 == k) = true := by
  rw [mapInsert]
  split
  · next h =>
    obtain ⟨p, hp, hpk⟩ := List.any_eq_true.mp h
    refine List.any_eq_true.mpr ⟨(k, v), ?_, by simp⟩
    refine List.mem_map.mpr ⟨p, hp, ?_⟩
    rw [if_pos hpk]
  · exact List.any_eq_true.mpr ⟨(k, v), by simp, by simp⟩

theorem mapInsert_any_mono (m : List (Nat × String)) (k : Nat) (v : String) (k2 : Nat)
    (h : m.any (fun p => p.1 == k2) = true) :
    (mapInsert m k v).any (fun p => p.1 == k2) = true := by
  rw [mapInsert]
  obtain ⟨p, hp, hpk2⟩ := List.any_eq_true.mp h
  split
  · by_cases hpk : (p.1 == k) = true
    · refine List.any_eq_true.mpr ⟨(k, v), List.mem_map.mpr ⟨p, hp, by rw [if_pos hpk]⟩, ?_⟩
      have h1 : p.1 = k := by simpa using hpk
      have h2 : p.1 = k2 := by simpa using hpk2
      simp [← h1, h2]
    · exact List.any_eq_true.mpr ⟨p, List.mem_map.mpr ⟨p, hp, by rw [if_neg hpk]⟩, hpk2⟩
  · exact List.any_eq_true.mpr ⟨p, by simp [hp], hpk2⟩

theorem foldl_addStep_circle_len (hash : String → Nat) (x : String) :
    ∀ (L : List Nat) (c : Consistant),
      (L.foldl (addStep hash x) c).circle.length ≤ c.circle.length + L.length := by
  intro L
  induction L with
  | nil => intro c; simp
  | cons j t ih =>
    intro c
    rw [List.foldl_cons]
    calc (t.foldl (addStep hash x) (addStep hash x c j)).circle.length
        ≤ (addStep hash x c j).circle.length + t.length := ih _
      _ ≤ c.circle.length + 1 + t.length := by
          have := mapInsert_length_le c.circle
            (hash (generate_element_name x j)) x
          exact Nat.add_le_add_right this t.length
      _ = c.circle.length + (j :: t).length := by simp [Nat.add_assoc, Nat.add_comm 1]

theorem foldl_addStep_any_mono (hash : String → Nat) (x : String) :
    ∀ (L : List Nat) (c : Consistant) (k : Nat),
      c.circle.any (fun p => p.1 == k) = true →
      (L.foldl (addStep hash x) c).circle.any (fun p => p.1 == k) = true := by
  intro L
  induction L with
  | nil => intro c k h; exact h
  | cons j t ih =>
    intro c k h
    rw [List.foldl_cons]
    exact ih _ k (mapInsert_any_mono c.circle _ x k h)

theorem foldl_addStep_key_present (hash : String → Nat) (x : String) :
    ∀ (L : List Nat) (c : Consistant) (i : Nat), i ∈ L →
      (L.foldl (addStep hash x) c).circle.any
        (fun p => p.1 == hash (generate_element_name x i)) = true := by
  intro L
  induction L with
  | nil => intro c i hi; simp at hi
  | cons j t ih =>
    intro c i hi
    rw [List.foldl_cons]
    rcases List.mem_cons.mp hi with rfl | hit
    · exact foldl_addStep_any_mono hash x t _ _ (mapInsert_any_self c.circle _ x)
    · exact ih _ i hit

theorem foldl_addStep_len_lt (hash : String → Nat) (x : String) :
    ∀ (L : List Nat) (c : Consistant) (i : Nat), i ∈ L →
      c.circle.any (fun p => p.1 == hash (generate_element_name x i)) = true →
      (L.foldl (addStep hash x) c).circle.length + 1 ≤ c.circle.length + L.length := by
  intro L
  induction L with
  | nil => intro c i hi; simp at hi
  | cons j t ih =>
    intro c i hi hpres
    rw [List.foldl_cons]
    by_cases hij : i = j
    · have hlen : (addStep hash x c j).circle.length = c.circle.length :=
        mapInsert_length_of_mem c.circle _ x (hij ▸ hpres)
      calc (t.foldl (addStep hash x) (addStep hash x c j)).circle.length + 1
          ≤ (addStep hash x c j).circle.length + t.length + 1 :=
            Nat.add_le_add_right (foldl_addStep_circle_len hash x t _) 1
        _ = c.circle.length + (j :: t).length := by rw [hlen, List.length_cons]; omega
    · have hit : i ∈ t := by
        rcases List.mem_cons.mp hi with h1 | h1
        · exact absurd h1 hij
        · exact h1
      have hpres2 : (addStep hash x c j).circle.any
          (fun p => p.1 == hash (generate_element_name x i)) = true :=
        mapInsert_any_mono c.circle _ x _ hpres
      calc (t.foldl (addStep hash x) (addStep hash x c j)).circle.length + 1
          ≤ (addStep hash x c j).circle.length + t.length := ih _ i hit hpres2
        _ ≤ c.circle.length + 1 + t.length :=
            Nat.add_le_add_right (mapInsert_length_le c.circle _ x) t.length
        _ = c.circle.length + (j :: t).length := by simp [Nat.add_assoc, Nat.add_comm 1]

end Consistant

/-- C10: the virtual-point naming scheme is not injective — the distinct
names a and a1 with replica indices 11 and 1 (both within the replica
range of a 12-replica ring) produce the same virtual-point name a11, so
whatever the injected hash function is, adding both nodes to a fresh
12-replica ring deterministically collides and leaves the point map with
fewer than 2 * 12 entries. -/
theorem element_name_collision :
    ("a" ≠ "a1" ∧ 11 < 12 ∧ 1 < 12 ∧
      generate_element_name "a" 11 = generate_element_name "a1" 1) ∧
    ∀ hash : String → Nat,
      (add hash (add hash (Consistant.new 12) "a") "a1").circle.length < 2 * 12 := by
  refine ⟨by decide, ?_⟩
  intro hash
  have hx1 : (Consistant.new 12).contains "a" = false := rfl
  have hlen1 : (add hash (Consistant.new 12) "a").circle.length ≤ 12 := by
    rw [Consistant.add_not_mem_circle hash _ "a" hx1]
    have := Consistant.foldl_addStep_circle_len hash "a"
      (List.range (Consistant.new 12).replicas_num) (Consistant.new 12)
    simpa using this
  have hpres : (add hash (Consistant.new 12) "a").circle.any
      (fun p => p.1 == hash (generate_element_name "a" 11)) = true := by
    rw [Consistant.add_not_mem_circle hash _ "a" hx1]
    exact Consistant.foldl_addStep_key_present hash "a" _ _ 11 (by decide)
  have hm1 : (add hash (Consistant.new 12) "a").members = ["a"] := by
    rw [Consistant.add_members, hx1]
    rfl
  have hx2 : (add hash (Consistant.new 12) "a").contains "a1" = false := by
    rw [Consistant.contains, hm1]
    rfl
  have hgen : generate_element_name "a1" 1 = generate_element_name "a" 11 := rfl
  have hpres2 : (add hash (Consistant.new 12) "a").circle.any
      (fun p => p.1 == hash (generate_element_name "a1" 1)) = true := by
    rw [hgen]
    exact hpres
  have hrep1 : (add hash (Consistant.new 12) "a").replicas_num = 12 :=
    Consistant.add_replicas hash _ "a"
  have hlt : (add hash (add hash (Consistant.new 12) "a") "a1").circle.length + 1
      ≤ (add hash (Consistant.new 12) "a").circle.length + 12 := by
    rw [Consistant.add_not_mem_circle hash _ "a1" hx2, hrep1]
    have := Consistant.foldl_addStep_len_lt hash "a1" (List.range 12)
      (add hash (Consistant.new 12) "a") 1 (by simp) hpres2
    simpa using this
  omega

namespace Consistant

theorem nodup_keys_eq : ∀ (m : List (Nat × String)), (m.map Prod.fst).Nodup →
    ∀ p ∈ m, ∀ q ∈ m, p.1 = q.1 → p = q := by
  intro m
  induction m with
  | nil => intro _ p hp; simp at hp
  | cons a t ih =>
    intro hnd p hp q hq hpq
    rw [List.map_cons] at hnd
    have hnd2 := List.nodup_cons.mp hnd
    rcases List.mem_cons.mp hp with rfl | hp2
    · rcases List.mem_cons.mp hq with rfl | hq2
      · rfl
      · exact absurd (hpq ▸ List.mem_map_of_mem Prod.fst hq2) hnd2.1
    · rcases List.mem_cons.mp hq with rfl | hq2
      · exact absurd (hpq ▸ List.mem_map_of_mem Prod.fst hp2) hnd2.1
      · exact ih hnd2.2 p hp2 q hq2 hpq

theorem filter_key_map (q : Nat → Bool) : ∀ (m : List (Nat × String)),
    (m.filter (fun p => q p.1)).map Prod.fst = (m.map Prod.fst).filter q := by
  intro m
  induction m with
  | nil => rfl
  | cons a t ih =>
    rw [List.map_cons, List.filter_cons, List.filter_cons]
    by_cases ha : q a.1 = true
    · rw [if_pos ha, if_pos ha, List.map_cons, ih]
    · rw [if_neg ha, if_neg ha, ih]

theorem foldl_mapRemove_filter : ∀ (K : List Nat) (m : List (Nat × String)),
    K.foldl (fun m2 k => mapRemove m2 k) m = m.filter (fun p => decide (p.1 ∉ K)) := by
  intro K
  induction K with
  | nil => intro m; simp
  | cons k t ih =>
    intro m
    rw [List.foldl_cons]
    have h1 : mapRemove m k = m.filter (fun p => decide (p.1 ≠ k)) := rfl
    rw [h1, ih, List.filter_filter]
    have h2 : (fun p : Nat × String => decide (p.1 ∉ t) && decide (p.1 ≠ k))
        = fun p : Nat × String => decide (p.1 ∉ k :: t) := by
      funext p
      by_cases ha : p.1 = k <;> by_cases hb : p.1 ∈ t <;> simp [ha, hb]
    rw [h2]

theorem foldl_erase_nodup_filter : ∀ (K : List Nat) (s : List Nat), s.Nodup →
    K.foldl (fun l k => l.erase k) s = s.filter (fun k => decide (k ∉ K)) := by
  intro K
  induction K with
  | nil => intro s _; simp
  | cons k t ih =>
    intro s hnd
    rw [List.foldl_cons]
    have h1 : s.erase k = s.filter (fun a => a != k) := hnd.erase_eq_filter k
    rw [h1, ih _ (hnd.filter _), List.filter_filter]
    have h2 : (fun a : Nat => decide (a ∉ t) && (a != k))
        = fun a : Nat => decide (a ∉ k :: t) := by
      funext a
      by_cases ha : a = k <;> by_cases hb : a ∈ t <;> simp [ha, hb]
    rw [h2]

end Consistant

namespace Consistant

theorem Inv_new (hash : String → Nat) (r : Nat) : Inv hash (Consistant.new r) := by
  refine ⟨?_, ?_, ?_, ?_, ?_, ?_, ?_, ?_⟩ <;> simp [Consistant.new]

theorem Inv_add (hash : String → Nat) (c : Consistant) (x : String)
    (hr : 1 ≤ c.replicas_num) (hInv : Inv hash c) (hfresh : AddFresh hash c x) :
    Inv hash (add hash c x) := by
  by_cases hx : c.contains x = true
  · rw [add, if_pos hx]
    exact hInv
  · have hx2 : c.contains x = false := by simpa using hx
    rcases hfresh with hmem | ⟨hndH, hfreshK⟩
    · exact absurd hmem hx
    obtain ⟨hsort, hperm, hknd, hmnd, hiff, hmempt, hptkey, hcount⟩ := hInv
    have hxmem : x ∉ c.members := by
      intro h
      rw [contains] at hx2
      simp [h] at hx2
    have hfreshC2 : ∀ i ∈ List.range c.replicas_num, ∀ p ∈ c.circle,
        p.1 ≠ hash (generate_element_name x i) := by
      intro i hi p hp hcontra
      exact hfreshK i (List.mem_range.mp hi) (hcontra ▸ List.mem_map_of_mem Prod.fst hp)
    obtain ⟨hAc, hAk⟩ := foldl_addStep_fresh hash x (List.range c.replicas_num) c hfreshC2 hndH
    have hCrep : (add hash c x).replicas_num = c.replicas_num := add_replicas hash c x
    have hCc : (add hash c x).circle = c.circle
        ++ (List.range c.replicas_num).map
            (fun i => (hash (generate_element_name x i), x)) := by
      rw [add_not_mem_circle hash c x hx2, hAc]
    have hCk : (add hash c x).sorted_keys = (c.sorted_keys
        ++ (List.range c.replicas_num).map
            (fun i => hash (generate_element_name x i))).insertionSort (· ≤ ·) := by
      rw [add_not_mem_keys hash c x hx2, hAk]
    have hCm : (add hash c x).members = c.members ++ [x] := by
      rw [add_members, hx2]
      rfl
    have hPfst : ((List.range c.replicas_num).map
          (fun i => (hash (generate_element_name x i), x))).map Prod.fst
        = (List.range c.replicas_num).map (fun i => hash (generate_element_name x i)) := by
      rw [List.map_map]
      rfl
    have hdisj : List.Disjoint (c.circle.map Prod.fst)
        ((List.range c.replicas_num).map (fun i => hash (generate_element_name x i))) := by
      intro a ha haH
      obtain ⟨i, hi, rfl⟩ := List.mem_map.mp haH
      exact hfreshK i (List.mem_range.mp hi) ha
    refine ⟨?_, ?_, ?_, ?_, ?_, ?_, ?_, ?_⟩
    · rw [hCk]
      exact List.sorted_insertionSort (· ≤ ·) _
    · rw [hCk, hCc]
      refine List.Perm.trans (List.perm_insertionSort _ _) ?_
      refine List.Perm.trans (hperm.append_right _) ?_
      rw [List.map_append, hPfst]
    · rw [hCc, List.map_append, hPfst]
      exact List.Nodup.append hknd hndH hdisj
    · rw [hCm]
      refine List.Nodup.append hmnd (List.nodup_singleton x) ?_
      intro a ha hax
      rw [List.mem_singleton] at hax
      exact hxmem (hax ▸ ha)
    · intro s
      rw [hCm, hCc]
      constructor
      · intro hs
        rcases List.mem_append.mp hs with hs1 | hs2
        · obtain ⟨p, hp, hps⟩ := (hiff s).mp hs1
          exact ⟨p, List.mem_append_left _ hp, hps⟩
        · rw [List.mem_singleton] at hs2
          subst hs2
          refine ⟨(hash (generate_element_name s 0), s), List.mem_append_right _ ?_, rfl⟩
          exact List.mem_map.mpr ⟨0, List.mem_range.mpr hr, rfl⟩
      · rintro ⟨p, hp, rfl⟩
        rcases List.mem_append.mp hp with hp1 | hp2
        · exact List.mem_append_left _ ((hiff p.2).mpr ⟨p, hp1, rfl⟩)
        · obtain ⟨i, _, rfl⟩ := List.mem_map.mp hp2
          exact List.mem_append_right _ (by simp)
    · intro s hs i hi
      rw [hCrep] at hi
      rw [hCm] at hs
      rw [hCc]
      rcases List.mem_append.mp hs with hs1 | hs2
      · exact List.mem_append_left _ (hmempt s hs1 i hi)
      · rw [List.mem_singleton] at hs2
        subst hs2
        exact List.mem_append_right _
          (List.mem_map.mpr ⟨i, List.mem_range.mpr hi, rfl⟩)
    · intro p hp
      rw [hCrep]
      rw [hCc] at hp
      rcases List.mem_append.mp hp with hp1 | hp2
      · exact hptkey p hp1
      · obtain ⟨i, hi, rfl⟩ := List.mem_map.mp hp2
        exact ⟨i, List.mem_range.mp hi, rfl⟩
    · intro s hs
      rw [hCrep]
      rw [hCm] at hs
      rw [hCc, List.filter_append]
      rcases List.mem_append.mp hs with hs1 | hs2
      · have hsx : s ≠ x := fun h => hxmem (h ▸ hs1)
        have hP : ((List.range c.replicas_num).map
            (fun i => (hash (generate_element_name x i), x))).filter
              (fun p => p.2 == s) = [] := by
          rw [List.filter_eq_nil_iff]
          intro p hp
          obtain ⟨i, _, rfl⟩ := List.mem_map.mp hp
          simp only [beq_iff_eq]
          exact fun h => hsx h.symm
        rw [hP, List.append_nil]
        exact hcount s hs1
      · rw [List.mem_singleton] at hs2
        subst hs2
        have hC : c.circle.filter (fun p => p.2 == s) = [] := by
          rw [List.filter_eq_nil_iff]
          intro p hp
          intro hps
          rw [beq_iff_eq] at hps
          exact hxmem ((hiff s).mpr ⟨p, hp, hps⟩)
        have hP : ((List.range c.replicas_num).map
            (fun i => (hash (generate_element_name s i), s))).filter
              (fun p => p.2 == s) = (List.range c.replicas_num).map
                (fun i => (hash (generate_element_name s i), s)) := by
          rw [List.filter_eq_self]
          intro p hp
          obtain ⟨i, _, rfl⟩ := List.mem_map.mp hp
          simp
        rw [hC, hP, List.nil_append, List.length_map, List.length_range]

end Consistant

namespace Consistant

theorem Inv_remove (hash : String → Nat) (c : Consistant) (x : String)
    (hInv : Inv hash c) : Inv hash (remove hash c x) := by
  by_cases hx : c.contains x = true
  · obtain ⟨hsort, hperm, hknd, hmnd, hiff, hmempt, hptkey, hcount⟩ := hInv
    have hxmem : x ∈ c.members := by
      rw [contains] at hx
      simpa using hx
    have hkv : ∀ p ∈ c.circle,
        (p.1 ∈ (List.range c.replicas_num).map
          (fun i => hash (generate_element_name x i)) ↔ p.2 = x) := by
      intro p hp
      constructor
      · intro hpH
        obtain ⟨i, hi, hkey⟩ := List.mem_map.mp hpH
        have hx_pt : (hash (generate_element_name x i), x) ∈ c.circle :=
          hmempt x hxmem i (List.mem_range.mp hi)
        have hpe := nodup_keys_eq c.circle hknd p hp _ hx_pt hkey.symm
        rw [hpe]
      · intro hpx
        obtain ⟨i, hi, hkey⟩ := hptkey p hp
        refine List.mem_map.mpr ⟨i, List.mem_range.mpr hi, ?_⟩
        rw [hkey, hpx]
    have hCrep := remove_replicas hash c x
    have hCc : (remove hash c x).circle
        = c.circle.filter (fun p => decide (p.1 ∉ (List.range c.replicas_num).map
            (fun i => hash (generate_element_name x i)))) := by
      rw [remove_mem_circle hash c x hx, foldl_removeStep_circle,
        foldl_mapRemove_over_map (fun i => hash (generate_element_name x i)),
        foldl_mapRemove_filter]
    have hCc2 : (remove hash c x).circle
        = c.circle.filter (fun p => decide (¬ p.2 = x)) := by
      rw [hCc]
      apply List.filter_congr
      intro p hp
      simp only [decide_eq_decide]
      exact not_congr (hkv p hp)
    have hsknd : c.sorted_keys.Nodup := hperm.nodup_iff.mpr hknd
    have hCk : (remove hash c x).sorted_keys
        = c.sorted_keys.filter (fun k => decide (k ∉ (List.range c.replicas_num).map
            (fun i => hash (generate_element_name x i)))) := by
      rw [remove_mem_keys hash c x hx, foldl_removeStep_keys,
        foldl_erase_over_map (fun i => hash (generate_element_name x i)),
        foldl_erase_nodup_filter _ _ hsknd]
    have hCm : (remove hash c x).members = c.members.erase x := by
      rw [remove_mem_members hash c x hx, foldl_removeStep_members]
    refine ⟨?_, ?_, ?_, ?_, ?_, ?_, ?_, ?_⟩
    · rw [hCk]
      exact hsort.filter _
    · rw [hCk, hCc, filter_key_map (fun k => decide (k ∉ (List.range c.replicas_num).map
        (fun i => hash (generate_element_name x i))))]
      exact hperm.filter _
    · rw [hCc, filter_key_map (fun k => decide (k ∉ (List.range c.replicas_num).map
        (fun i => hash (generate_element_name x i))))]
      exact hknd.filter _
    · rw [hCm]
      exact hmnd.erase x
    · intro s
      rw [hCm, hCc2, hmnd.mem_erase_iff]
      constructor
      · rintro ⟨hsx, hsm⟩
        obtain ⟨p, hp, hps⟩ := (hiff s).mp hsm
        refine ⟨p, List.mem_filter.mpr ⟨hp, ?_⟩, hps⟩
        simp only [decide_eq_true_eq]
        rw [hps]
        exact hsx
      · rintro ⟨p, hpf, hps⟩
        obtain ⟨hp, hdec⟩ := List.mem_filter.mp hpf
        have hpx : ¬ p.2 = x := by simpa using hdec
        refine ⟨?_, (hiff s).mpr ⟨p, hp, hps⟩⟩
        rw [← hps]
        exact hpx
    · intro s hs i hi
      rw [hCrep] at hi
      rw [hCm, hmnd.mem_erase_iff] at hs
      obtain ⟨hsx, hsm⟩ := hs
      rw [hCc2]
      refine List.mem_filter.mpr ⟨hmempt s hsm i hi, ?_⟩
      simpa using hsx
    · intro p hp
      rw [hCrep]
      rw [hCc2] at hp
      exact hptkey p (List.mem_filter.mp hp).1
    · intro s hs
      rw [hCm, hmnd.mem_erase_iff] at hs
      obtain ⟨hsx, hsm⟩ := hs
      rw [hCrep, hCc2, List.filter_filter]
      have hcong : c.circle.filter (fun p => p.2 == s && decide (¬ p.2 = x))
          = c.circle.filter (fun p => p.2 == s) := by
        apply List.filter_congr
        intro p hp
        by_cases hps : p.2 = s
        · simp [hps, hsx]
        · simp [hps]
      rw [hcong]
      exact hcount s hsm
  · rw [remove, if_neg hx]
    exact hInv

end Consistant

/-- C4 counterexample: the ring state reached by a single add on a ring
constructed with replicas_num = 0 has a member that owns no virtual point,
so its member set is not the set of node names occurring as values of the
point map. -/
theorem member_without_point_at_zero_replicas :
    ¬ (∀ s, s ∈ (add hashZ (Consistant.new 0) "a").members ↔
        ∃ p ∈ (add hashZ (Consistant.new 0) "a").circle, p.2 = s) := by
  intro h
  obtain ⟨p, hp, _⟩ := (h "a").mp (by decide)
  have hcirc : (add hashZ (Consistant.new 0) "a").circle = [] := by decide
  rw [hcirc] at hp
  exact absurd hp (List.not_mem_nil p)

/-- C4 (amended, restricted to rings whose replicas_num is at least 1): a
freshly constructed ring satisfies the ring-state invariants — sorted_keys
ascending and exactly the key set of the point map, members exactly the
owner names of the point map, each member owning exactly replicas_num
points — and both add (absent hash collisions among the inserted virtual
points) and remove preserve them. -/
theorem ring_invariants_preserved (hash : String → Nat) (r : Nat) (c : Consistant)
    (x : String) (hr : 1 ≤ c.replicas_num) (hInv : Inv hash c)
    (hfresh : AddFresh hash c x) :
    Inv hash (Consistant.new r) ∧ Inv hash (add hash c x) ∧ Inv hash (remove hash c x) :=
  ⟨Consistant.Inv_new hash r, Consistant.Inv_add hash c x hr hInv hfresh,
    Consistant.Inv_remove hash c x hInv⟩

theorem ring_invariants_preserved_witness :
    Inv hashZ (Consistant.new 3) ∧ Inv hashZ (add hashZ (Consistant.new 1) "a") ∧
      Inv hashZ (remove hashZ (Consistant.new 1) "a") :=
  ring_invariants_preserved hashZ 3 (Consistant.new 1) "a" (by decide)
    (Consistant.Inv_new hashZ 1) (Or.inr ⟨by decide, by decide⟩)
